import Mathlib

set_option autoImplicit false
set_option linter.unusedVariables false

attribute [local semireducible] Rat.sub Rat.add Rat.mul Rat.inv

namespace Protokol

/-! Shallow embedding of the protokol repository's sharded token-bucket rate
limiter (package ratelimit, the sharded version of
src/middleware/auth/auth.go), the ByIP key extractor, the adapters.Chain
middleware composition, and the cleanup goroutine's event loop.

Conventions: Go float64 token counts and time instants are modelled as
rationals (seconds on the monotonic clock); Go maps are modelled as
association lists; fallible stdlib calls return Option. -/

/-- Request mirrors the Go struct protokol.Request (src/backend.go), restricted
to the fields the rate limiter reads: Service, Method, Metadata, RemoteAddr.
Metadata (a Go map from header name to slice of values) is an association
list. -/
structure Request where
  Service : String
  Method : String
  Metadata : List (String × List String)
  RemoteAddr : String

/-- Go map lookup req.Metadata[k] on the metadata association list. -/
def getMeta (md : List (String × List String)) (k : String) : Option (List String) :=
  (md.find? (fun p => p.1 == k)).map Prod.snd

/-- goIsSpace mirrors Go unicode.IsSpace: the Unicode White_Space code points. -/
def goIsSpace (c : Char) : Bool :=
  let n := c.toNat
  (9 ≤ n && n ≤ 13) || n == 32 || n == 133 || n == 160 || n == 0x1680 ||
    (0x2000 ≤ n && n ≤ 0x200A) || n == 0x2028 || n == 0x2029 || n == 0x202F ||
    n == 0x205F || n == 0x3000

/-- trimSpace mirrors Go strings.TrimSpace: drop leading and trailing
White_Space characters. -/
def trimSpace (s : String) : String :=
  String.mk (((s.data.dropWhile goIsSpace).reverse.dropWhile goIsSpace).reverse)

/-- firstSegment mirrors Go strings.Split(s, ",")[0]: the part of s before the
first comma (s itself when there is none). -/
def firstSegment (s : String) : String :=
  String.mk (s.data.takeWhile (fun c => c != ','))

/-- Index of the first occurrence of c in cs (Go bytealg.IndexByteString). -/
def idxOf : List Char → Char → Option Nat
  | [], _ => none
  | x :: xs, c => if x = c then some 0 else (idxOf xs c).map (· + 1)

/-- Index of the last occurrence of c in cs (Go net.last). -/
def lastIdxOf : List Char → Char → Option Nat
  | [], _ => none
  | x :: xs, c =>
    match lastIdxOf xs c with
    | some j => some (j + 1)
    | none => if x = c then some 0 else none

/-- splitHostPort mirrors Go net.SplitHostPort: split "host:port" (or
"[host]:port") into host and port; none models a returned error. -/
def splitHostPort (hostport : List Char) : Option (List Char × List Char) :=
  match lastIdxOf hostport ':' with
  | none => none
  | some i =>
    if hostport.head? = some '[' then
      match idxOf hostport ']' with
      | none => none
      | some e =>
        if e + 1 = hostport.length then none
        else if e + 1 = i then
          if (hostport.drop 1).contains '[' then none
          else if (hostport.drop (e + 1)).contains ']' then none
          else some ((hostport.take e).drop 1, hostport.drop (i + 1))
        else none
    else
      if (hostport.take i).contains ':' then none
      else if hostport.contains '[' then none
      else if hostport.contains ']' then none
      else some (hostport.take i, hostport.drop (i + 1))

/-- The X-Forwarded-For derived candidate of ByIP (auth.go lines 255-261):
trimmed first comma-segment of the first header value, or the empty string. -/
def xffCandidate (req : Request) : String :=
  match getMeta req.Metadata "X-Forwarded-For" with
  | some (v :: _) => trimSpace (firstSegment v)
  | _ => ""

/-- The X-Real-Ip derived candidate of ByIP (auth.go lines 264-269): trimmed
first header value, or the empty string. -/
def xriCandidate (req : Request) : String :=
  match getMeta req.Metadata "X-Real-Ip" with
  | some (v :: _) => trimSpace v
  | _ => ""

/-- The connection-address derived candidate of ByIP (auth.go lines 272-280):
for a non-empty RemoteAddr, the host part of "ip:port", or RemoteAddr itself
when SplitHostPort fails; empty when RemoteAddr is empty. -/
def remoteCandidate (req : Request) : String :=
  if req.RemoteAddr = "" then ""
  else
    match splitHostPort req.RemoteAddr.data with
    | none => req.RemoteAddr
    | some (host, _) => String.mk host

/-- ByIP mirrors ratelimit.ByIP (auth.go lines 253-284): X-Forwarded-For first,
then X-Real-Ip, then the connection address; each candidate is returned only
when non-empty, and the empty string signals bypass. -/
def ByIP (req : Request) : String :=
  if xffCandidate req ≠ "" then xffCandidate req
  else if xriCandidate req ≠ "" then xriCandidate req
  else remoteCandidate req

/-- Bucket mirrors the Go bucket struct (auth.go lines 286-291): tokens,
lastCheck (the spec's lastRefill) and lastUsed. -/
structure Bucket where
  tokens : ℚ
  lastCheck : ℚ
  lastUsed : ℚ
deriving DecidableEq

/-- A shard's buckets map (auth.go lines 294-297), as an association list. -/
abbrev Shard := List (String × Bucket)

/-- Limiter mirrors the ratelimit.Middleware struct (auth.go lines 300-310);
the keyFunc is passed separately where needed. -/
structure Limiter where
  shards : List Shard
  rate : ℚ
  capacity : ℚ
  cleanupInterval : ℚ
  maxIdleTime : ℚ
deriving DecidableEq

def defaultShards : Nat := 32

def defaultCleanupInterval : ℚ := 60

def defaultMaxIdleTime : ℚ := 5 * 60

/-- newLimiter mirrors ratelimit.New (auth.go lines 333-363): 32 empty shards,
capacity = float64(burst), rate = requestsPerSecond; cleanupInterval and
maxIdleTime are the defaults possibly overridden by options, so they are
parameters here. -/
def newLimiter (requestsPerSecond : ℚ) (burst : ℤ) (ci mi : ℚ) : Limiter :=
  { shards := List.replicate defaultShards []
    rate := requestsPerSecond
    capacity := (burst : ℚ)
    cleanupInterval := ci
    maxIdleTime := mi }

def fnvOffset32 : Nat := 2166136261

def fnvPrime32 : Nat := 16777619

/-- FNV-1a 32-bit hash of the UTF-8 bytes of a string (Go hash/fnv, used by
getShard, auth.go lines 389-393). -/
def fnv32a (s : String) : Nat :=
  (s.data.flatMap (fun c => (String.utf8EncodeChar c).map UInt8.toNat)).foldl
    (fun h b => ((h ^^^ b) * fnvPrime32) % 2 ^ 32) fnvOffset32

/-- Shard index of a key: Sum32() % uint32(len(m.shards)) (auth.go line 392). -/
def shardIdx (L : Limiter) (key : String) : Nat :=
  fnv32a key % L.shards.length

/-- Go map lookup s.buckets[key]. -/
def lookupShard : Shard → String → Option Bucket
  | [], _ => none
  | q :: sh, key => if q.1 = key then some q.2 else lookupShard sh key

/-- Go map store s.buckets[key] = b: replace the entry in place, or add it. -/
def updateShard : Shard → String → Bucket → Shard
  | [], key, b => [(key, b)]
  | q :: sh, key, b => if q.1 = key then (key, b) :: sh else q :: updateShard sh key b

/-- The refill-and-consume step under the bucket lock (auth.go lines 424-436):
refill by elapsed seconds times rate, clamp to capacity, stamp lastCheck and
lastUsed, then reject if fewer than one token, else debit one. -/
def allowBucket (rate capacity : ℚ) (b : Bucket) (now : ℚ) : Bool × Bucket :=
  let elapsed := now - b.lastCheck
  let t := b.tokens + elapsed * rate
  let t := if t > capacity then capacity else t
  if t < 1 then (false, { tokens := t, lastCheck := now, lastUsed := now })
  else (true, { tokens := t - 1, lastCheck := now, lastUsed := now })

/-- allow mirrors Middleware.allow (auth.go lines 395-437): locate the shard,
look up the bucket (creating a full one on first sight of the key), then
refill and consume; the time is the parameter now. -/
def allow (L : Limiter) (key : String) (now : ℚ) : Bool × Limiter :=
  let i := shardIdx L key
  let sh := L.shards.getD i []
  let b :=
    match lookupShard sh key with
    | some b => b
    | none => { tokens := L.capacity, lastCheck := now, lastUsed := now }
  let r := allowBucket L.rate L.capacity b now
  (r.1, { L with shards := L.shards.set i (updateShard sh key r.2) })

/-- The bucket the limiter currently holds for a key, if any. -/
def findBucket (L : Limiter) (key : String) : Option Bucket :=
  lookupShard (L.shards.getD (shardIdx L key) []) key

/-- One shard's pass of Middleware.cleanup (auth.go lines 461-490): the scan
collects keys with lastUsed before the cutoff and the delete phase re-checks
the same strict comparison, so sequentially the pass removes exactly the
entries with lastUsed < cutoff. -/
def cleanupShard (cutoff : ℚ) : Shard → Shard
  | [] => []
  | q :: sh =>
    if q.2.lastUsed < cutoff then cleanupShard cutoff sh
    else q :: cleanupShard cutoff sh

/-- cleanup mirrors Middleware.cleanup (auth.go lines 457-491): cutoff is
now - maxIdleTime and every shard is scanned. -/
def cleanup (L : Limiter) (now : ℚ) : Limiter :=
  { L with shards := L.shards.map (cleanupShard (now - L.maxIdleTime)) }

/-- Errors visible to the middleware layer; rateLimited is ErrRateLimited. -/
inductive GoError where
  | rateLimited
  | other (code : Nat)
deriving DecidableEq

/-- Response is opaque to the limiter; a tag stands for its contents. -/
structure Response where
  tag : Nat
deriving DecidableEq

/-- The (response, error) pair a Go handler returns. -/
abbrev HResult := Except GoError Response

/-- A Handler processes a request (adapters.Handler). -/
abbrev Handler := Request → HResult

/-- wrapRL mirrors ratelimit Middleware.Wrap (auth.go lines 371-386): an empty
key bypasses limiting; otherwise allow is consulted and rejection
short-circuits with ErrRateLimited. The limiter state is threaded
explicitly. -/
def wrapRL (L : Limiter) (keyFunc : Request → String) (next : Handler)
    (req : Request) (now : ℚ) : HResult × Limiter :=
  let key := keyFunc req
  if key = "" then (next req, L)
  else
    let r := allow L key now
    if r.1 then (next req, r.2) else (Except.error GoError.rateLimited, r.2)

/-- A middleware, reduced to its Wrap capability (adapters.Middleware). -/
abbrev MW := Handler → Handler

/-- Chain mirrors adapters.Chain (adapter.go lines 76-81): the loop runs i from
len-1 down to 0 doing h = middleware[i].Wrap(h), i.e. a left fold over the
reversed list. -/
def Chain (h : Handler) (middleware : List MW) : Handler :=
  middleware.reverse.foldl (fun acc m => m acc) h

/-- nestWrap is the specification shape of composition: the nested wrapping
m1.Wrap (m2.Wrap (... mn.Wrap h ...)). -/
def nestWrap (h : Handler) : List MW → Handler
  | [] => h
  | m :: ms => m (nestWrap h ms)

/-- Events the cleanup goroutine can receive in its select (auth.go lines
446-453): a ticker tick or the stop channel becoming readable. -/
inductive LoopEvent where
  | tick
  | stopSignal
deriving DecidableEq

/-- Observable actions of the cleanup goroutine: an eviction run (m.cleanup())
and the deferred close(cleanupDone) that lets Stop return. -/
inductive LoopAction where
  | runCleanup
  | closeDone
deriving DecidableEq

/-- cleanupLoop mirrors Middleware.cleanupLoop (auth.go lines 440-454) over a
linearized sequence of select events: each tick triggers one eviction run; the
stop signal makes the loop return, whereupon the deferred close(cleanupDone)
fires; events after the return are never consumed. -/
def cleanupLoop : List LoopEvent → List LoopAction
  | [] => []
  | LoopEvent.stopSignal :: _ => [LoopAction.closeDone]
  | LoopEvent.tick :: es => LoopAction.runCleanup :: cleanupLoop es

/-- Repeated admission checks for one key at one instant, counting admits. -/
def allowN (L : Limiter) (key : String) (now : ℚ) : Nat → Nat × Limiter
  | 0 => (0, L)
  | Nat.succ n =>
    let r := allow L key now
    let rest := allowN r.2 key now n
    ((if r.1 then 1 else 0) + rest.1, rest.2)

/-- Per-bucket invariant carried through reachability: token bounds plus a
refill timestamp no later than the current time. -/
def BucketInv (cap t : ℚ) (b : Bucket) : Prop :=
  0 ≤ b.tokens ∧ b.tokens ≤ cap ∧ b.lastCheck ≤ t

/-- All buckets of all shards satisfy the bucket invariant. -/
def LimiterInv (L : Limiter) (t : ℚ) : Prop :=
  ∀ sh ∈ L.shards, ∀ q ∈ sh, BucketInv L.capacity t q.2

/-- Each shard's key list has no duplicates (the Go map abstraction). -/
abbrev ShardKeysNodup (L : Limiter) : Prop :=
  ∀ sh ∈ L.shards, (sh.map Prod.fst).Nodup

/-- Reachable limiter states: freshly constructed, then any interleaving of
admission checks and eviction runs at non-decreasing times. -/
inductive Reach : Limiter → ℚ → Prop where
  | init (rps : ℚ) (burst : ℤ) (ci mi t0 : ℚ) : Reach (newLimiter rps burst ci mi) t0
  | step_allow {L : Limiter} {t : ℚ} (key : String) {now : ℚ} :
      Reach L t → t ≤ now → Reach (allow L key now).2 now
  | step_cleanup {L : Limiter} {t : ℚ} {now : ℚ} :
      Reach L t → t ≤ now → Reach (cleanup L now) now

/-- specStep restates the spec's four-step admission algorithm word for word:
elapsed = now - lastRefill; tokens = min(capacity, tokens + elapsed * rate);
both timestamps become now; reject without debit when tokens < 1, else debit
one and admit. Used to compare Middleware.allow against the spec. -/
def specStep (rate capacity tokens lastRefill now : ℚ) : Bool × Bucket :=
  let elapsed := now - lastRefill
  let tokens := min capacity (tokens + elapsed * rate)
  if tokens < 1 then (false, { tokens := tokens, lastCheck := now, lastUsed := now })
  else (true, { tokens := tokens - 1, lastCheck := now, lastUsed := now })

/-- A limiter holding the key "a" with an empty bucket stamped at time 0
(obtained by spending the single burst token of a rate-1, burst-1 limiter). -/
def drainedLimiter : Limiter := (allow (newLimiter 1 1 60 300) "a" 0).2

/-- A request with no forwarding headers whose connection address ":8080" has
an empty host part. -/
def portOnlyRequest : Request :=
  { Service := "s", Method := "m", Metadata := [], RemoteAddr := ":8080" }

/-- The spec's forwarded-for scenario request. -/
def xffRequest : Request :=
  { Service := "s", Method := "m"
    Metadata := [("X-Forwarded-For", ["1.2.3.4, 5.6.7.8"])]
    RemoteAddr := "10.0.0.1:80" }

/-- A rate-2, burst-3 limiter that has admitted one request for "a" at time
0, so its bucket holds 2 tokens. -/
def burstLimiter : Limiter := (allow (newLimiter 2 3 60 300) "a" 0).2

/-- A limiter with bucket "a" last used at time 0 and bucket "ba" last used at
time 250 (maxIdleTime 300). -/
def idleLimiter : Limiter :=
  (allow (allow (newLimiter 1 5 60 300) "a" 0).2 "ba" 250).2

/-- A limiter holding only the key "ba", which hashes to the same shard as
"a" (FNV-1a of both is 12 mod 32). -/
def frameLimiter : Limiter := (allow (newLimiter 1 5 60 300) "ba" 0).2

/-- Key extraction by service name (ratelimit.ByService), used as a concrete
key function in witnesses. -/
def ByService (req : Request) : String := req.Service

/-- A next handler that always succeeds with an opaque response. -/
def okHandler : Handler := fun _ => Except.ok { tag := 7 }

/-- A request whose service name is empty, so ByService yields the empty key. -/
def emptyKeyRequest : Request :=
  { Service := "", Method := "m", Metadata := [], RemoteAddr := "1.1.1.1:1" }

/-- A request whose service name is "svc". -/
def svcRequest : Request :=
  { Service := "svc", Method := "m", Metadata := [], RemoteAddr := "1.1.1.1:1" }

/-- A burst-0 limiter: every admission check is rejected. -/
def zeroBurstLimiter : Limiter := newLimiter 1 0 60 300

/-! Helper lemmas about lists, shards and the allow step. -/

theorem getD_set_eq {α : Type} (l : List α) (i : Nat) (x d : α) (h : i < l.length) :
    (l.set i x).getD i d = x := by
  induction l generalizing i with
  | nil => simp at h
  | cons a l ih =>
    cases i with
    | zero => rfl
    | succ n => simpa using ih n (by simpa using h)

theorem getD_set_ne {α : Type} (l : List α) (i j : Nat) (x d : α) (h : i ≠ j) :
    (l.set i x).getD j d = l.getD j d := by
  induction l generalizing i j with
  | nil => rfl
  | cons a l ih =>
    cases i with
    | zero =>
      cases j with
      | zero => exact absurd rfl h
      | succ m => rfl
    | succ n =>
      cases j with
      | zero => rfl
      | succ m => simpa using ih n m (by omega)

theorem set_of_length_le {α : Type} (l : List α) (i : Nat) (x : α) (h : l.length ≤ i) :
    l.set i x = l := by
  induction l generalizing i with
  | nil => rfl
  | cons a l ih =>
    cases i with
    | zero => simp at h
    | succ n => exact congrArg (List.cons a) (ih n (by simpa using h))

theorem getD_map_shard (f : Shard → Shard) (hf : f [] = []) (l : List Shard) (i : Nat) :
    (l.map f).getD i [] = f (l.getD i []) := by
  induction l generalizing i with
  | nil => simpa using hf.symm
  | cons a l ih =>
    cases i with
    | zero => rfl
    | succ n => simpa using ih n

theorem getD_mem {α : Type} (l : List α) (i : Nat) (d : α) (h : i < l.length) :
    l.getD i d ∈ l := by
  induction l generalizing i with
  | nil => simp at h
  | cons a l ih =>
    cases i with
    | zero => exact List.mem_cons_self a l
    | succ n => exact List.mem_cons_of_mem a (by simpa using ih n (by simpa using h))

theorem lookupShard_update_self (sh : Shard) (key : String) (b : Bucket) :
    lookupShard (updateShard sh key b) key = some b := by
  induction sh with
  | nil => simp [updateShard, lookupShard]
  | cons q sh ih =>
    by_cases h : q.1 = key
    · simp [updateShard, h, lookupShard]
    · simp [updateShard, h, lookupShard, ih]

theorem lookupShard_update_ne (sh : Shard) (key k2 : String) (b : Bucket) (h : k2 ≠ key) :
    lookupShard (updateShard sh key b) k2 = lookupShard sh k2 := by
  induction sh with
  | nil => simp [updateShard, lookupShard, Ne.symm h]
  | cons q sh ih =>
    by_cases hq : q.1 = key
    · simp [updateShard, hq, lookupShard, Ne.symm h]
    · simp [updateShard, hq, lookupShard, ih]

theorem mem_updateShard (sh : Shard) (key : String) (b : Bucket) (q : String × Bucket)
    (hq : q ∈ updateShard sh key b) : q = (key, b) ∨ q ∈ sh := by
  induction sh with
  | nil => simpa [updateShard] using hq
  | cons p sh ih =>
    by_cases h : p.1 = key
    · rw [updateShard, if_pos h] at hq
      rcases List.mem_cons.mp hq with h1 | h1
      · exact Or.inl h1
      · exact Or.inr (List.mem_cons_of_mem p h1)
    · rw [updateShard, if_neg h] at hq
      rcases List.mem_cons.mp hq with h1 | h1
      · exact Or.inr (h1 ▸ List.mem_cons_self p sh)
      · rcases ih h1 with h2 | h2
        · exact Or.inl h2
        · exact Or.inr (List.mem_cons_of_mem p h2)

theorem lookupShard_mem (sh : Shard) (key : String) (b : Bucket)
    (h : lookupShard sh key = some b) : (key, b) ∈ sh := by
  induction sh with
  | nil => simp [lookupShard] at h
  | cons q sh ih =>
    by_cases hq : q.1 = key
    · rw [lookupShard, if_pos hq] at h
      have : q = (key, b) := by
        cases q
        simp_all
      exact this ▸ List.mem_cons_self q sh
    · rw [lookupShard, if_neg hq] at h
      exact List.mem_cons_of_mem q (ih h)

theorem mem_cleanupShard (cutoff : ℚ) (sh : Shard) (q : String × Bucket)
    (hq : q ∈ cleanupShard cutoff sh) : q ∈ sh := by
  induction sh with
  | nil => simp [cleanupShard] at hq
  | cons p sh ih =>
    rw [cleanupShard] at hq
    split at hq
    · exact List.mem_cons_of_mem p (ih hq)
    · rcases List.mem_cons.mp hq with h1 | h1
      · exact h1 ▸ List.mem_cons_self p sh
      · exact List.mem_cons_of_mem p (ih h1)

theorem lookupShard_cleanupShard_none (cutoff : ℚ) (sh : Shard) (key : String)
    (h : lookupShard sh key = none) : lookupShard (cleanupShard cutoff sh) key = none := by
  induction sh with
  | nil => rfl
  | cons q sh ih =>
    rw [lookupShard] at h
    split at h
    · exact absurd h (by simp)
    · rw [cleanupShard]
      split
      · exact ih h
      · rw [lookupShard, if_neg (by assumption)]
        exact ih h

theorem lookupShard_cleanupShard_kept (cutoff : ℚ) (sh : Shard) (key : String) (b : Bucket)
    (hl : lookupShard sh key = some b) (hb : ¬ b.lastUsed < cutoff) :
    lookupShard (cleanupShard cutoff sh) key = some b := by
  induction sh with
  | nil => simp [lookupShard] at hl
  | cons q sh ih =>
    by_cases hq : q.1 = key
    · rw [lookupShard, if_pos hq] at hl
      have hqb : q.2 = b := by exact Option.some.inj hl
      rw [cleanupShard, if_neg (hqb ▸ hb), lookupShard, if_pos hq, hqb]
    · rw [lookupShard, if_neg hq] at hl
      rw [cleanupShard]
      split
      · exact ih hl
      · rw [lookupShard, if_neg hq]
        exact ih hl

theorem lookupShard_eq_none_of_not_mem (sh : Shard) (key : String)
    (h : key ∉ sh.map Prod.fst) : lookupShard sh key = none := by
  induction sh with
  | nil => rfl
  | cons q sh ih =>
    simp only [List.map_cons, List.mem_cons, not_or] at h
    rw [lookupShard, if_neg (fun hq => h.1 hq.symm)]
    exact ih h.2

theorem lookupShard_cleanupShard_dropped (cutoff : ℚ) (sh : Shard) (key : String) (b : Bucket)
    (hnd : (sh.map Prod.fst).Nodup) (hl : lookupShard sh key = some b)
    (hb : b.lastUsed < cutoff) : lookupShard (cleanupShard cutoff sh) key = none := by
  induction sh with
  | nil => simp [lookupShard] at hl
  | cons q sh ih =>
    simp only [List.map_cons, List.nodup_cons] at hnd
    by_cases hq : q.1 = key
    · rw [lookupShard, if_pos hq] at hl
      have hqb : q.2 = b := Option.some.inj hl
      rw [cleanupShard, if_pos (hqb ▸ hb)]
      exact lookupShard_cleanupShard_none cutoff sh key
        (lookupShard_eq_none_of_not_mem sh key (hq ▸ hnd.1))
    · rw [lookupShard, if_neg hq] at hl
      rw [cleanupShard]
      split
      · exact ih hnd.2 hl
      · rw [lookupShard, if_neg hq]
        exact ih hnd.2 hl

theorem clamp_min (cap x : ℚ) : (if x > cap then cap else x) = min cap x := by
  by_cases h : cap < x
  · rw [if_pos h]
    exact (min_eq_left h.le).symm
  · rw [if_neg h]
    exact (min_eq_right (le_of_not_lt h)).symm

theorem allowBucket_eq_spec (rate cap : ℚ) (b : Bucket) (now : ℚ) :
    allowBucket rate cap b now = specStep rate cap b.tokens b.lastCheck now := by
  simp only [allowBucket, specStep, clamp_min]

theorem specStep_reject (rate cap tok lr now : ℚ)
    (h : (specStep rate cap tok lr now).1 = false) :
    min cap (tok + (now - lr) * rate) < 1 ∧
      (specStep rate cap tok lr now).2 =
        { tokens := min cap (tok + (now - lr) * rate), lastCheck := now, lastUsed := now } := by
  simp only [specStep] at h ⊢
  split at h
  · rename_i hlt
    exact ⟨hlt, by rw [if_pos hlt]⟩
  · simp at h

theorem findBucket_pos (L : Limiter) (key : String) (b : Bucket)
    (hb : findBucket L key = some b) : 0 < L.shards.length := by
  cases h : L.shards with
  | nil => simp [findBucket, h, lookupShard] at hb
  | cons a l => simp [h]

theorem allow_shards_length (L : Limiter) (key : String) (now : ℚ) :
    (allow L key now).2.shards.length = L.shards.length := by
  simp [allow]

theorem allow_rate (L : Limiter) (key : String) (now : ℚ) :
    (allow L key now).2.rate = L.rate := rfl

theorem allow_capacity (L : Limiter) (key : String) (now : ℚ) :
    (allow L key now).2.capacity = L.capacity := rfl

theorem allow_fst (L : Limiter) (key : String) (now : ℚ) :
    (allow L key now).1 =
      (allowBucket L.rate L.capacity
        (match findBucket L key with
          | some b => b
          | none => { tokens := L.capacity, lastCheck := now, lastUsed := now }) now).1 := rfl

theorem findBucket_allow_self (L : Limiter) (key : String) (now : ℚ)
    (hpos : 0 < L.shards.length) :
    findBucket (allow L key now).2 key =
      some (allowBucket L.rate L.capacity
        (match findBucket L key with
          | some b => b
          | none => { tokens := L.capacity, lastCheck := now, lastUsed := now }) now).2 := by
  have hidx : shardIdx (allow L key now).2 key = shardIdx L key := by
    simp [shardIdx, allow_shards_length]
  rw [findBucket, hidx]
  have hset : (allow L key now).2.shards =
      L.shards.set (shardIdx L key)
        (updateShard (L.shards.getD (shardIdx L key) []) key
          (allowBucket L.rate L.capacity
            (match lookupShard (L.shards.getD (shardIdx L key) []) key with
              | some b => b
              | none => { tokens := L.capacity, lastCheck := now, lastUsed := now }) now).2) := rfl
  have hlt : shardIdx L key < L.shards.length := Nat.mod_lt _ hpos
  rw [hset, getD_set_eq _ _ _ _ hlt, lookupShard_update_self]
  rfl

theorem bucketInv_mono (cap t t2 : ℚ) (b : Bucket) (h : BucketInv cap t b) (hle : t ≤ t2) :
    BucketInv cap t2 b :=
  ⟨h.1, h.2.1, h.2.2.trans hle⟩

theorem allowBucket_inv (rate cap now : ℚ) (b : Bucket) (hrate : 0 ≤ rate) (hcap : 0 ≤ cap)
    (hinv : BucketInv cap now b) : BucketInv cap now (allowBucket rate cap b now).2 := by
  rw [allowBucket_eq_spec, specStep]
  have h0 : 0 ≤ min cap (b.tokens + (now - b.lastCheck) * rate) :=
    le_min hcap (add_nonneg hinv.1 (mul_nonneg (sub_nonneg.mpr hinv.2.2) hrate))
  have hc : min cap (b.tokens + (now - b.lastCheck) * rate) ≤ cap := min_le_left _ _
  split
  · exact ⟨h0, hc, le_rfl⟩
  · refine ⟨?_, ?_, le_rfl⟩
    · have h1 : (1:ℚ) ≤ min cap (b.tokens + (now - b.lastCheck) * rate) := le_of_not_lt (by assumption)
      simpa using sub_nonneg.mpr h1
    · exact le_trans (sub_le_self _ zero_le_one) hc

theorem allowBucket_instant (rate cap T lu now : ℚ) (hcap : T ≤ cap) :
    allowBucket rate cap { tokens := T, lastCheck := now, lastUsed := lu } now =
      if T < 1 then (false, { tokens := T, lastCheck := now, lastUsed := now })
      else (true, { tokens := T - 1, lastCheck := now, lastUsed := now }) := by
  rw [allowBucket_eq_spec]
  simp only [specStep]
  have ht : min cap (T + (now - now) * rate) = T := by
    rw [sub_self, zero_mul, add_zero]
    exact min_eq_right hcap
  rw [ht]

theorem allowN_count (N : Nat) : ∀ (L : Limiter) (key : String) (now T lu : ℚ),
    findBucket L key = some { tokens := T, lastCheck := now, lastUsed := lu } →
    0 ≤ T → T ≤ L.capacity →
    (allowN L key now N).1 = min N (Nat.floor T) := by
  induction N with
  | zero =>
    intro L key now T lu hb h0 hcap
    simp [allowN]
  | succ n ih =>
    intro L key now T lu hb h0 hcap
    have hpos := findBucket_pos L key _ hb
    have hnext := findBucket_allow_self L key now hpos
    have hfst := allow_fst L key now
    rw [hb] at hnext hfst
    rw [allowBucket_instant _ _ _ _ _ hcap] at hnext hfst
    have hstep : (allowN L key now (n + 1)).1 =
        (if (allow L key now).1 then 1 else 0) + (allowN (allow L key now).2 key now n).1 := rfl
    by_cases h1 : T < 1
    · rw [if_pos h1] at hnext hfst
      have hrec := ih (allow L key now).2 key now T now hnext h0
        (by rw [allow_capacity]; exact hcap)
      rw [hstep, hfst, hrec]
      have hf0 : Nat.floor T = 0 := Nat.floor_eq_zero.mpr h1
      simp [hf0]
    · rw [if_neg h1] at hnext hfst
      have h1' : (1:ℚ) ≤ T := le_of_not_lt h1
      have hrec := ih (allow L key now).2 key now (T - 1) now hnext (sub_nonneg.mpr h1')
        (by rw [allow_capacity]; exact le_trans (sub_le_self T zero_le_one) hcap)
      rw [hstep, hfst, hrec]
      have hfl : Nat.floor (T - 1) = Nat.floor T - 1 := Nat.floor_sub_one T
      have hge : 1 ≤ Nat.floor T := Nat.le_floor (by exact_mod_cast h1')
      simp only [hfl]
      simp only [Prod.fst, if_true]
      omega

theorem getD_oob {α : Type} (l : List α) (i : Nat) (d : α) (h : l.length ≤ i) :
    l.getD i d = d := by
  induction l generalizing i with
  | nil => rfl
  | cons a l ih =>
    cases i with
    | zero => simp at h
    | succ n => simpa using ih n (by simpa using h)

theorem allow_shards_eq (L : Limiter) (key : String) (now : ℚ) :
    (allow L key now).2.shards =
      L.shards.set (shardIdx L key)
        (updateShard (L.shards.getD (shardIdx L key) []) key
          (allowBucket L.rate L.capacity
            (match findBucket L key with
              | some b => b
              | none => { tokens := L.capacity, lastCheck := now, lastUsed := now }) now).2) := rfl

theorem reach_inv (L : Limiter) (t : ℚ) (h : Reach L t) :
    0 ≤ L.rate → 0 ≤ L.capacity → LimiterInv L t := by
  induction h with
  | init rps burst ci mi t0 =>
    intro _ _ sh hsh q hq
    have hnil : sh = [] := List.eq_of_mem_replicate (by simpa [newLimiter] using hsh)
    rw [hnil] at hq
    simp at hq
  | step_allow key hR hle ih =>
    rename_i L t now
    intro hrate hcap
    have hrate' : 0 ≤ L.rate := hrate
    have hcap' : 0 ≤ L.capacity := hcap
    have hInv := ih hrate' hcap'
    intro sh' hsh' q hq
    show BucketInv L.capacity now q.2
    rw [allow_shards_eq] at hsh'
    rcases List.mem_or_eq_of_mem_set hsh' with hmem | heq
    · exact bucketInv_mono _ _ _ _ (hInv sh' hmem q hq) hle
    · rw [heq] at hq
      rcases mem_updateShard _ _ _ _ hq with hq1 | hq1
      · rw [hq1]
        have hsrc : BucketInv L.capacity now
            (match findBucket L key with
              | some b => b
              | none => { tokens := L.capacity, lastCheck := now, lastUsed := now }) := by
          rcases hfb : findBucket L key with _ | b0
          · exact ⟨hcap', le_rfl, le_rfl⟩
          · have hpos := findBucket_pos L key b0 hfb
            have hlt : shardIdx L key < L.shards.length := Nat.mod_lt _ hpos
            have hsh0 : L.shards.getD (shardIdx L key) [] ∈ L.shards := getD_mem _ _ _ hlt
            have hmem0 : (key, b0) ∈ L.shards.getD (shardIdx L key) [] :=
              lookupShard_mem _ _ _ hfb
            exact bucketInv_mono _ _ _ _ (hInv _ hsh0 _ hmem0) hle
        exact allowBucket_inv _ _ _ _ hrate' hcap' hsrc
      · by_cases hlen : shardIdx L key < L.shards.length
        · have hsh0 : L.shards.getD (shardIdx L key) [] ∈ L.shards := getD_mem _ _ _ hlen
          exact bucketInv_mono _ _ _ _ (hInv _ hsh0 q hq1) hle
        · rw [getD_oob _ _ _ (le_of_not_lt hlen)] at hq1
          simp at hq1
  | step_cleanup hR hle ih =>
    rename_i L t now
    intro hrate hcap
    have hInv := ih hrate hcap
    intro sh' hsh' q hq
    show BucketInv L.capacity now q.2
    have hsh2 : sh' ∈ L.shards.map (cleanupShard (now - L.maxIdleTime)) := hsh'
    rcases List.mem_map.mp hsh2 with ⟨sh0, hsh0, rfl⟩
    exact bucketInv_mono _ _ _ _ (hInv sh0 hsh0 q (mem_cleanupShard _ _ _ hq)) hle

/-! The claims. -/

/-- C1: for an existing bucket with 0 ≤ tokens ≤ capacity and a check time
now ≥ lastRefill, a single admission check agrees with the spec's four steps
(specStep) in both the admit decision and the stored bucket: tokens refilled
to min(capacity, tokens + elapsed·rate), lastRefill and lastUsed stamped to
now, rejection debits nothing and admission debits exactly one token. -/
theorem allow_follows_spec_steps (L : Limiter) (key : String) (now : ℚ) (b : Bucket)
    (hb : findBucket L key = some b) (h0 : 0 ≤ b.tokens) (hcap : b.tokens ≤ L.capacity)
    (hnow : b.lastCheck ≤ now) :
    (allow L key now).1 = (specStep L.rate L.capacity b.tokens b.lastCheck now).1 ∧
    findBucket (allow L key now).2 key =
      some (specStep L.rate L.capacity b.tokens b.lastCheck now).2 := by
  have hpos := findBucket_pos L key b hb
  have hnext := findBucket_allow_self L key now hpos
  have hfst := allow_fst L key now
  simp only [hb] at hnext hfst
  rw [allowBucket_eq_spec] at hnext hfst
  exact ⟨hfst, hnext⟩

/-- Witness for C1: the rate-2, burst-3 limiter checked at time 1 refills
min(3, 2 + 1·2) = 3 tokens, admits, and stores 2 tokens stamped at 1. -/
theorem allow_follows_spec_steps_witness :
    findBucket burstLimiter "a" = some { tokens := 2, lastCheck := 0, lastUsed := 0 } ∧
    (0:ℚ) ≤ 2 ∧ (2:ℚ) ≤ burstLimiter.capacity ∧ (0:ℚ) ≤ 1 ∧
    ((allow burstLimiter "a" 1).1 =
        (specStep burstLimiter.rate burstLimiter.capacity 2 0 1).1 ∧
      findBucket (allow burstLimiter "a" 1).2 "a" =
        some (specStep burstLimiter.rate burstLimiter.capacity 2 0 1).2) :=
  ⟨by decide, by decide, by decide, by decide,
    allow_follows_spec_steps burstLimiter "a" 1
      { tokens := 2, lastCheck := 0, lastUsed := 0 } (by decide) (by decide) (by decide)
      (by decide)⟩

/-- C2: in every reachable limiter state (any sequence of admission checks and
eviction runs from a fresh limiter at non-decreasing times, with nonnegative
rate and capacity), every present bucket satisfies 0 ≤ tokens ≤ capacity. -/
theorem reachable_tokens_bounded (L : Limiter) (t : ℚ) (hR : Reach L t)
    (hrate : 0 ≤ L.rate) (hcap : 0 ≤ L.capacity) (key : String) (b : Bucket)
    (hb : findBucket L key = some b) :
    0 ≤ b.tokens ∧ b.tokens ≤ L.capacity := by
  have hInv := reach_inv L t hR hrate hcap
  have hpos := findBucket_pos L key b hb
  have hlt : shardIdx L key < L.shards.length := Nat.mod_lt _ hpos
  have hmem := hInv _ (getD_mem _ _ [] hlt) _ (lookupShard_mem _ _ _ hb)
  exact ⟨hmem.1, hmem.2.1⟩

/-- Witness for C2: the limiter reached by one admission check on a fresh
rate-2, burst-3 limiter holds bucket "a" with 2 tokens, within [0, 3]. -/
theorem reachable_tokens_bounded_witness :
    0 ≤ burstLimiter.rate ∧ 0 ≤ burstLimiter.capacity ∧
    findBucket burstLimiter "a" = some { tokens := 2, lastCheck := 0, lastUsed := 0 } ∧
    (0 ≤ (2:ℚ) ∧ (2:ℚ) ≤ burstLimiter.capacity) :=
  ⟨by decide, by decide, by decide,
    reachable_tokens_bounded burstLimiter 0
      (Reach.step_allow "a" (Reach.init 2 3 60 300 0) le_rfl) (by decide) (by decide)
      "a" { tokens := 2, lastCheck := 0, lastUsed := 0 } (by decide)⟩

/-- C3: with tokens(K) = T stamped at the check instant, N admission attempts
at that instant admit exactly min(N, floor T); and a first-seen key gets a
full bucket, so N instant attempts on a fresh key admit exactly
min(N, burst). -/
theorem admits_min_of_tokens (L : Limiter) (key : String) (now : ℚ) (N : Nat) :
    (∀ T lu : ℚ,
      findBucket L key = some { tokens := T, lastCheck := now, lastUsed := lu } →
      0 ≤ T → T ≤ L.capacity → (allowN L key now N).1 = min N (Nat.floor T)) ∧
    (∀ burst : Nat, findBucket L key = none → L.capacity = (burst : ℚ) →
      0 < L.shards.length → (allowN L key now N).1 = min N burst) := by
  constructor
  · intro T lu hb h0 hcap
    exact allowN_count N L key now T lu hb h0 hcap
  · intro burst hnone hcapEq hpos
    cases N with
    | zero => simp [allowN]
    | succ n =>
      have hnext := findBucket_allow_self L key now hpos
      have hfst := allow_fst L key now
      simp only [hnone] at hnext hfst
      rw [allowBucket_instant _ _ _ _ _ le_rfl] at hnext hfst
      have hstep : (allowN L key now (n + 1)).1 =
          (if (allow L key now).1 then 1 else 0) + (allowN (allow L key now).2 key now n).1 :=
        rfl
      cases burst with
      | zero =>
        have h1 : L.capacity < 1 := by
          rw [hcapEq]
          norm_num
        rw [if_pos h1] at hnext hfst
        have hrec := allowN_count n (allow L key now).2 key now L.capacity now hnext
          (by rw [hcapEq]; norm_num) le_rfl
        rw [hstep, hfst, hrec, hcapEq, Nat.floor_natCast]
        simp
      | succ m =>
        have h1 : ¬ L.capacity < 1 := by
          rw [hcapEq]
          exact not_lt.mpr (by exact_mod_cast Nat.succ_le_succ (Nat.zero_le m))
        rw [if_neg h1] at hnext hfst
        have hrec := allowN_count n (allow L key now).2 key now (L.capacity - 1) now hnext
          (sub_nonneg.mpr (le_of_not_lt h1)) (le_trans (sub_le_self _ zero_le_one) le_rfl)
        rw [hstep, hfst, hrec]
        have hfl : Nat.floor (L.capacity - 1) = m := by
          rw [hcapEq]
          have hc : ((m + 1 : Nat) : ℚ) - 1 = (m : ℚ) := by
            push_cast
            ring
          rw [hc, Nat.floor_natCast]
        rw [hfl]
        simp [Nat.succ_min_succ]
        omega

/-- Witness for C3: on a fresh rate-2, burst-3 limiter, 5 instant attempts for
the fresh key "a" admit exactly min(5, 3) = 3; and with 2 tokens stamped at
time 0 (burstLimiter), 5 attempts admit exactly min(5, floor 2) = 2. -/
theorem admits_min_of_tokens_witness :
    findBucket (newLimiter 2 3 60 300) "a" = none ∧
    (newLimiter 2 3 60 300).capacity = ((3 : Nat) : ℚ) ∧
    0 < (newLimiter 2 3 60 300).shards.length ∧
    (allowN (newLimiter 2 3 60 300) "a" 0 5).1 = min 5 3 ∧
    findBucket burstLimiter "a" = some { tokens := 2, lastCheck := 0, lastUsed := 0 } ∧
    (0:ℚ) ≤ 2 ∧ (2:ℚ) ≤ burstLimiter.capacity ∧
    (allowN burstLimiter "a" 0 5).1 = min 5 (Nat.floor (2:ℚ)) :=
  ⟨by decide, by decide, by decide,
    (admits_min_of_tokens (newLimiter 2 3 60 300) "a" 0 5).2 3 (by decide) (by decide)
      (by decide),
    by decide, by decide, by decide,
    (admits_min_of_tokens burstLimiter "a" 0 5).1 2 0 (by decide) (by decide) (by decide)⟩

/-- C4 counterexample: a rejected admission check does mutate the bucket. On
the drained rate-1, burst-1 limiter, the check at time 1/2 is rejected, yet
the stored bucket changes (tokens 0 → 1/2 and both timestamps 0 → 1/2),
refuting the claim that a rejected check leaves tokens, lastRefill and
lastUsed unchanged. -/
theorem rejected_check_mutates_counterexample :
    (allow drainedLimiter "a" (1/2)).1 = false ∧
    findBucket (allow drainedLimiter "a" (1/2)).2 "a" ≠ findBucket drainedLimiter "a" := by
  decide

/-- C4 amended: a rejected admission check debits nothing — the stored tokens
equal the full refilled value min(capacity, tokens + elapsed·rate), which is
below 1 — though the check does refresh the bucket, setting lastRefill and
lastUsed to now. -/
theorem rejected_check_no_debit (L : Limiter) (key : String) (now : ℚ) (b : Bucket)
    (hb : findBucket L key = some b) (hrej : (allow L key now).1 = false) :
    min L.capacity (b.tokens + (now - b.lastCheck) * L.rate) < 1 ∧
    findBucket (allow L key now).2 key =
      some { tokens := min L.capacity (b.tokens + (now - b.lastCheck) * L.rate),
             lastCheck := now, lastUsed := now } := by
  have hpos := findBucket_pos L key b hb
  have hnext := findBucket_allow_self L key now hpos
  have hfst := allow_fst L key now
  simp only [hb] at hnext hfst
  rw [allowBucket_eq_spec] at hnext hfst
  rw [hfst] at hrej
  have hr := specStep_reject _ _ _ _ _ hrej
  rw [hnext, hr.2]
  exact ⟨hr.1, rfl⟩

/-- Witness for C4's amended claim: the drained limiter's rejected check at
time 1/2 stores exactly the refilled value min(1, 0 + (1/2)·1) = 1/2. -/
theorem rejected_check_no_debit_witness :
    findBucket drainedLimiter "a" = some { tokens := 0, lastCheck := 0, lastUsed := 0 } ∧
    (allow drainedLimiter "a" (1/2)).1 = false ∧
    (min drainedLimiter.capacity ((0:ℚ) + ((1/2:ℚ) - 0) * drainedLimiter.rate) < 1 ∧
      findBucket (allow drainedLimiter "a" (1/2)).2 "a" =
        some { tokens := min drainedLimiter.capacity ((0:ℚ) + ((1/2:ℚ) - 0) * drainedLimiter.rate),
               lastCheck := 1/2, lastUsed := 1/2 }) :=
  ⟨by decide, by decide,
    rejected_check_no_debit drainedLimiter "a" (1/2)
      { tokens := 0, lastCheck := 0, lastUsed := 0 } (by decide) (by decide)⟩

/-- C5: when the key function yields the empty key, the wrapped handler
forwards to the next handler with no admission check and no limiter change;
the middleware short-circuits with the rate-limit error exactly when the key
is non-empty and its admission check rejects, and otherwise forwards the next
handler's result unchanged. -/
theorem wrap_bypass_and_reject (L : Limiter) (kf : Request → String) (next : Handler)
    (req : Request) (now : ℚ) :
    (kf req = "" → wrapRL L kf next req now = (next req, L)) ∧
    (kf req ≠ "" → (allow L (kf req) now).1 = true →
      wrapRL L kf next req now = (next req, (allow L (kf req) now).2)) ∧
    (kf req ≠ "" → (allow L (kf req) now).1 = false →
      wrapRL L kf next req now =
        (Except.error GoError.rateLimited, (allow L (kf req) now).2)) := by
  refine ⟨?_, ?_, ?_⟩
  · intro h
    simp [wrapRL, h]
  · intro h ha
    simp [wrapRL, h, ha]
  · intro h ha
    simp [wrapRL, h, ha]

/-- Witness for C5: a request with empty service name bypasses the burst-0
limiter, while the "svc" request's check rejects and yields ErrRateLimited. -/
theorem wrap_bypass_and_reject_witness :
    ByService emptyKeyRequest = "" ∧
    wrapRL zeroBurstLimiter ByService okHandler emptyKeyRequest 0 =
      (okHandler emptyKeyRequest, zeroBurstLimiter) ∧
    ByService svcRequest ≠ "" ∧
    (allow zeroBurstLimiter (ByService svcRequest) 0).1 = false ∧
    wrapRL zeroBurstLimiter ByService okHandler svcRequest 0 =
      (Except.error GoError.rateLimited, (allow zeroBurstLimiter (ByService svcRequest) 0).2) :=
  ⟨by decide,
    (wrap_bypass_and_reject zeroBurstLimiter ByService okHandler emptyKeyRequest 0).1
      (by decide),
    by decide, by decide,
    (wrap_bypass_and_reject zeroBurstLimiter ByService okHandler svcRequest 0).2.2
      (by decide) (by decide)⟩

/-- C6 counterexample: the claim says the empty key results only when all
three sources are absent or empty, but a request with no forwarding headers
and the non-empty connection address ":8080" yields the empty key, because
SplitHostPort extracts an empty host. -/
theorem byIP_empty_key_counterexample :
    ByIP portOnlyRequest = "" ∧ portOnlyRequest.RemoteAddr ≠ "" ∧
    getMeta portOnlyRequest.Metadata "X-Forwarded-For" = none ∧
    getMeta portOnlyRequest.Metadata "X-Real-Ip" = none := by
  decide

/-- C6 amended: ByIP applies the precedence forwarded-for, then real-IP, then
connection address over the derived candidates (trimmed first comma-segment
of the first forwarded-for value; trimmed first real-IP value; host part of
the connection address, or the address itself when it has no port), the first
non-empty derived candidate wins, and the key is empty exactly when all three
derived candidates are empty — which can happen with a non-empty RemoteAddr
whose host part is empty. -/
theorem byIP_precedence (req : Request) :
    (xffCandidate req ≠ "" → ByIP req = xffCandidate req) ∧
    (xffCandidate req = "" → xriCandidate req ≠ "" → ByIP req = xriCandidate req) ∧
    (xffCandidate req = "" → xriCandidate req = "" → ByIP req = remoteCandidate req) ∧
    (ByIP req = "" ↔
      xffCandidate req = "" ∧ xriCandidate req = "" ∧ remoteCandidate req = "") := by
  refine ⟨?_, ?_, ?_, ?_⟩
  · intro h
    simp [ByIP, h]
  · intro h1 h2
    simp [ByIP, h1, h2]
  · intro h1 h2
    simp [ByIP, h1, h2]
  · constructor
    · intro h
      by_cases h1 : xffCandidate req = ""
      · by_cases h2 : xriCandidate req = ""
        · exact ⟨h1, h2, by simpa [ByIP, h1, h2] using h⟩
        · simp [ByIP, h1, h2] at h
      · simp [ByIP, h1] at h
    · rintro ⟨h1, h2, h3⟩
      simp [ByIP, h1, h2, h3]

/-- Witness for C6's amended claim: the spec's forwarded-for scenario — the
header value "1.2.3.4, 5.6.7.8" wins the precedence and yields "1.2.3.4". -/
theorem byIP_precedence_witness :
    xffCandidate xffRequest = "1.2.3.4" ∧ xffCandidate xffRequest ≠ "" ∧
    ByIP xffRequest = "1.2.3.4" := by
  refine ⟨by decide, by decide, ?_⟩
  have h := (byIP_precedence xffRequest).1 (by decide)
  rw [h]
  decide

/-- C7: an eviction run at time now removes exactly the buckets idle for more
than maxIdleTime: a bucket last used more than maxIdleTime before now is gone
afterwards, and a bucket last used within maxIdleTime survives unchanged. -/
theorem cleanup_evicts_exactly_idle (L : Limiter) (now : ℚ) (key : String) (b : Bucket)
    (hnd : ShardKeysNodup L) (hb : findBucket L key = some b) :
    (now - b.lastUsed > L.maxIdleTime → findBucket (cleanup L now) key = none) ∧
    (now - b.lastUsed ≤ L.maxIdleTime → findBucket (cleanup L now) key = some b) := by
  have hpos := findBucket_pos L key b hb
  have hlt : shardIdx L key < L.shards.length := Nat.mod_lt _ hpos
  have hshmem : L.shards.getD (shardIdx L key) [] ∈ L.shards := getD_mem _ _ _ hlt
  have hidx : shardIdx (cleanup L now) key = shardIdx L key := by
    simp [cleanup, shardIdx]
  have hshards : (cleanup L now).shards =
      L.shards.map (cleanupShard (now - L.maxIdleTime)) := rfl
  have hget : (cleanup L now).shards.getD (shardIdx L key) [] =
      cleanupShard (now - L.maxIdleTime) (L.shards.getD (shardIdx L key) []) := by
    rw [hshards]
    exact getD_map_shard _ rfl _ _
  constructor
  · intro hidle
    have hlu : b.lastUsed < now - L.maxIdleTime := by linarith
    rw [findBucket, hidx, hget]
    exact lookupShard_cleanupShard_dropped _ _ _ _ (hnd _ hshmem) hb hlu
  · intro hfresh
    have hlu : ¬ b.lastUsed < now - L.maxIdleTime := by linarith
    rw [findBucket, hidx, hget]
    exact lookupShard_cleanupShard_kept _ _ _ _ hb hlu

/-- Witness for C7: with maxIdleTime 300, the run at time 350 evicts bucket
"a" (idle since 0) and keeps bucket "ba" (used at 250) unchanged. -/
theorem cleanup_evicts_exactly_idle_witness :
    ShardKeysNodup idleLimiter ∧
    findBucket idleLimiter "a" = some { tokens := 4, lastCheck := 0, lastUsed := 0 } ∧
    (350:ℚ) - 0 > idleLimiter.maxIdleTime ∧
    findBucket (cleanup idleLimiter 350) "a" = none ∧
    findBucket idleLimiter "ba" = some { tokens := 4, lastCheck := 250, lastUsed := 250 } ∧
    (350:ℚ) - 250 ≤ idleLimiter.maxIdleTime ∧
    findBucket (cleanup idleLimiter 350) "ba" =
      some { tokens := 4, lastCheck := 250, lastUsed := 250 } :=
  ⟨by decide, by decide, by decide,
    (cleanup_evicts_exactly_idle idleLimiter 350 "a"
      { tokens := 4, lastCheck := 0, lastUsed := 0 } (by decide) (by decide)).1 (by decide),
    by decide, by decide,
    (cleanup_evicts_exactly_idle idleLimiter 350 "ba"
      { tokens := 4, lastCheck := 250, lastUsed := 250 } (by decide) (by decide)).2
      (by decide)⟩

/-- C8: Chain equals the nested wrapping m1.Wrap (m2.Wrap (... mn.Wrap h ...))
— the first-listed middleware ends up outermost, applied last by the loop —
and Chain with an empty middleware sequence returns the terminal handler
itself. -/
theorem chain_eq_nested_wrap (h : Handler) (ms : List MW) :
    Chain h ms = nestWrap h ms ∧ Chain h [] = h := by
  refine ⟨?_, rfl⟩
  induction ms with
  | nil => rfl
  | cons m ms ih =>
    show (m :: ms).reverse.foldl (fun acc f => f acc) h = m (nestWrap h ms)
    rw [List.reverse_cons, List.foldl_append]
    exact congrArg m ih

/-- C9: an admission check for one key leaves every other key's bucket lookup
unchanged, including keys hashing to the same shard. -/
theorem allow_preserves_other_keys (L : Limiter) (k1 k2 : String) (now : ℚ)
    (hne : k1 ≠ k2) :
    findBucket (allow L k1 now).2 k2 = findBucket L k2 := by
  by_cases hlen : shardIdx L k1 < L.shards.length
  · have hidx2 : shardIdx (allow L k1 now).2 k2 = shardIdx L k2 := by
      simp [shardIdx, allow_shards_length]
    rw [findBucket, hidx2, allow_shards_eq]
    by_cases heq : shardIdx L k2 = shardIdx L k1
    · rw [heq, getD_set_eq _ _ _ _ hlen,
        lookupShard_update_ne _ _ _ _ (Ne.symm hne), findBucket, heq]
    · rw [getD_set_ne _ _ _ _ _ (fun hh => heq hh.symm)]
      rfl
  · have hset : (allow L k1 now).2.shards = L.shards := by
      rw [allow_shards_eq]
      exact set_of_length_le _ _ _ (le_of_not_lt hlen)
    simp only [findBucket, shardIdx, hset]

/-- Witness for C9: "a" and "ba" hash to the same shard (index 12 of 32), yet
a check for "a" leaves the bucket of "ba" untouched. -/
theorem allow_preserves_other_keys_witness :
    "a" ≠ "ba" ∧ shardIdx frameLimiter "a" = shardIdx frameLimiter "ba" ∧
    findBucket (allow frameLimiter "a" 1).2 "ba" = findBucket frameLimiter "ba" :=
  ⟨by decide, by decide, allow_preserves_other_keys frameLimiter "a" "ba" 1 (by decide)⟩

/-- C10: over any linearized event sequence of the cleanup goroutine, events
arriving after the stop signal contribute nothing (no eviction run after the
stop is consumed), and whenever close(cleanupDone) fires — the only thing
that lets Stop return — it is the loop's final action, after which nothing
runs, and a stop signal was indeed consumed. -/
theorem stop_halts_eviction :
    (∀ pre post : List LoopEvent,
      cleanupLoop (pre ++ LoopEvent.stopSignal :: post) =
        cleanupLoop (pre ++ [LoopEvent.stopSignal])) ∧
    (∀ es : List LoopEvent, LoopAction.closeDone ∈ cleanupLoop es →
      (∃ n : Nat, cleanupLoop es =
        List.replicate n LoopAction.runCleanup ++ [LoopAction.closeDone]) ∧
      LoopEvent.stopSignal ∈ es) := by
  constructor
  · intro pre post
    induction pre with
    | nil => rfl
    | cons e pre ih =>
      cases e with
      | tick =>
        show LoopAction.runCleanup :: cleanupLoop (pre ++ LoopEvent.stopSignal :: post) = _
        rw [ih]
        rfl
      | stopSignal => rfl
  · intro es hm
    induction es with
    | nil => simp [cleanupLoop] at hm
    | cons e es ih =>
      cases e with
      | stopSignal => exact ⟨⟨0, rfl⟩, List.mem_cons_self _ _⟩
      | tick =>
        have hm2 : LoopAction.closeDone ∈ cleanupLoop es := by
          simpa [cleanupLoop] using hm
        rcases ih hm2 with ⟨⟨n, hn⟩, hs⟩
        refine ⟨⟨n + 1, ?_⟩, List.mem_cons_of_mem _ hs⟩
        show LoopAction.runCleanup :: cleanupLoop es = _
        rw [hn, List.replicate_succ, List.cons_append]

/-- Witness for C10: with events tick, stop, tick, the trailing tick triggers
nothing, and on tick-then-stop the trace is one eviction run followed by the
terminal closeDone. -/
theorem stop_halts_eviction_witness :
    cleanupLoop ([LoopEvent.tick] ++ LoopEvent.stopSignal :: [LoopEvent.tick]) =
      cleanupLoop ([LoopEvent.tick] ++ [LoopEvent.stopSignal]) ∧
    LoopAction.closeDone ∈ cleanupLoop [LoopEvent.tick, LoopEvent.stopSignal] ∧
    ((∃ n : Nat, cleanupLoop [LoopEvent.tick, LoopEvent.stopSignal] =
        List.replicate n LoopAction.runCleanup ++ [LoopAction.closeDone]) ∧
      LoopEvent.stopSignal ∈ [LoopEvent.tick, LoopEvent.stopSignal]) :=
  ⟨stop_halts_eviction.1 [LoopEvent.tick] [LoopEvent.tick], by decide,
    stop_halts_eviction.2 [LoopEvent.tick, LoopEvent.stopSignal] (by decide)⟩

end Protokol
